import Mathlib

/-
  Verification development for the bplustree Go package (bplustree.go).

  The Go code is a pointer-based B+ tree whose nodes carry parent
  back-references and doubly-linked sibling references, so the embedding
  uses an explicit heap: nodes live in a list indexed by natural-number
  ids, and every Go pointer field becomes an `Option Nat` id.  The code is
  generic over key/value types with a strict-less comparator; the model
  instantiates both at `Int` with the usual `<`, the instantiation used by
  the repository's interactive driver.

  Go runtime panics (nil-pointer dereference, slice index out of range)
  are modelled by the error values of `GoErr`; recursion (top-down descent,
  bottom-up rebalancing) is made total with a fuel parameter, and fuel
  exhaustion is a distinct error value so that no theorem can mistake it
  for a modelled panic.
-/

namespace BPTree

/-- Model of the Go `node[kT, vT]` struct: keys, child ids, parent id,
order, sibling chain ids, role flag and (leaf-only) values. -/
structure GoNode where
  keys     : List Int := []
  children : List Nat := []
  parent   : Option Nat := none
  order    : Nat := 0
  next     : Option Nat := none
  prev     : Option Nat := none
  isLeaf   : Bool := false
  values   : List Int := []
deriving Repr, DecidableEq, Inhabited

/-- The heap: node ids are positions in this list. -/
abbrev Heap := List GoNode

/-- Dereference a node id (Go pointer dereference on a valid pointer). -/
def getN (s : Heap) (i : Nat) : GoNode := s.getD i default

/-- In-place update of the node stored at id `i`. -/
def updN (s : Heap) (i : Nat) (f : GoNode → GoNode) : Heap :=
  s.set i (f (getN s i))

/-- Go runtime failures: `nilDeref` models a nil-pointer dereference (and
the code's explicit panic call), `indexOOB` a slice index out of range,
and `outOfFuel` marks exhaustion of the model's recursion fuel. -/
inductive GoErr where
  | nilDeref
  | indexOOB
  | outOfFuel
deriving Repr, DecidableEq

/-- Result of a modelled Go computation that may panic. -/
abbrev Res (α : Type) := Except GoErr α

/-- The comparator used by the repository's driver: strict `<` on Int. -/
def less (a b : Int) : Bool := decide (a < b)

/-- The loop of Go's `sort.Search` (binary search for the first index
satisfying `f`), with fuel; `sortSearch` supplies enough fuel. -/
def searchGo (f : Nat → Bool) : Nat → Nat → Nat → Nat
  | 0, i, _ => i
  | fuel + 1, i, j =>
    if i < j then
      let h := (i + j) / 2
      if !(f h) then searchGo f fuel (h + 1) j else searchGo f fuel i h
    else i

/-- Go's `sort.Search(n, f)`: the interval [i, j) strictly shrinks each
iteration, so `n + 1` units of fuel always suffice. -/
def sortSearch (n : Nat) (f : Nat → Bool) : Nat := searchGo f (n + 1) 0 n

/-- `items.find`: index where `item` should be inserted, and whether it is
already present there (Go: `sort.Search` then a check of slot `i-1`). -/
def find (s : List Int) (item : Int) : Nat × Bool :=
  let i := sortSearch s.length (fun j => less item (s.getD j 0))
  if i > 0 && !(less (s.getD (i - 1) 0) item) then (i - 1, true) else (i, false)

/-- `items.insertAt`: positional insert, shifting later elements up.
(Go panics when `index` exceeds the length; call sites keep it in range.) -/
def insertAt (l : List α) (i : Nat) (a : α) : List α :=
  l.take i ++ a :: l.drop i

/-- `items.removeAt`: positional removal, shifting later elements down.
(Go panics when `index` is out of range; call sites keep it in range.) -/
def removeAt (l : List α) (i : Nat) : List α :=
  l.take i ++ l.drop (i + 1)

/-- `node.maxKeys`: `order - 1` for internal nodes, `order` for leaves. -/
def maxKeys (n : GoNode) : Int :=
  if !n.isLeaf then (n.order : Int) - 1 else (n.order : Int)

/-- `node.minKeys`: with degree `d = ceil(order / 2)`, internal nodes get
`d - 1` and leaves get `d`.  For a natural `order`, `ceil(order / 2)`
equals `(order + 1) / 2`. -/
def minKeys (n : GoNode) : Int :=
  let degree : Int := (((n.order + 1) / 2 : Nat) : Int)
  if !n.isLeaf then degree - 1 else degree

/-- `node.split(i)`: shrink node `nid` at index `i`, allocate the new right
sibling (keys at-and-after `i` for a leaf, strictly after `i` for an
internal node), splice it into the sibling chain, and return the key that
stood at index `i` together with the new node's id.  As in the source, the
children moved to the new node keep their old `parent` field. -/
def split (s : Heap) (nid : Nat) (i : Nat) : Heap × Int × Nat :=
  let n := getN s nid
  let key := n.keys.getD i 0
  let ik := if n.isLeaf then i else i + 1
  let newId := s.length
  let newNode : GoNode :=
    { keys := n.keys.drop ik
      children := if 0 < n.children.length then n.children.drop (i + 1) else []
      parent := n.parent
      order := n.order
      isLeaf := n.isLeaf
      values := if 0 < n.values.length then n.values.drop i else []
      prev := some nid
      next := n.next }
  let s := s ++ [newNode]
  let s := updN s nid fun m =>
    { m with
      keys := m.keys.take i
      children := if 0 < m.children.length then m.children.take (i + 1) else m.children
      values := if 0 < m.values.length then m.values.take i else m.values
      next := some newId }
  let s :=
    match n.next with
    | some nx => updN s nx fun m => { m with prev := some newId }
    | none => s
  (s, key, newId)

/-- `node.mayGrowUp`: while the node holds more than `maxKeys` keys, split
it at `minKeys`, promote the split key into the parent (creating a fresh
root when there is none) and re-check the parent.  Returns the new root id
(when one was created) and the boolean the source propagates to `Insert`. -/
def mayGrowUp : Nat → Heap → Nat → Res (Heap × Option Nat × Bool)
  | 0, _, _ => .error .outOfFuel
  | fuel + 1, s, nid =>
    let n := getN s nid
    if (n.keys.length : Int) ≤ maxKeys n then .ok (s, none, false)
    else
      match split s nid (minKeys n).toNat with
      | (s, promotedKey, newId) =>
        match (getN s nid).parent with
        | none =>
          let rootId := s.length
          let rootNode : GoNode :=
            { keys := [promotedKey], children := [nid, newId], order := (getN s nid).order }
          let s := s ++ [rootNode]
          let s := updN s nid fun m => { m with parent := some rootId }
          let s := updN s newId fun m => { m with parent := some rootId }
          .ok (s, some rootId, true)
        | some pid =>
          let p := getN s pid
          match find p.keys promotedKey with
          | (index, _) =>
            let s := updN s pid fun m =>
              { m with
                keys := insertAt m.keys index promotedKey
                children := insertAt m.children (index + 1) newId }
            mayGrowUp fuel s pid

/-- `node.insertIntoLeaf`: overwrite the value when the key is present
(returning false), otherwise insert the pair and run `mayGrowUp`. -/
def insertIntoLeaf (fuel : Nat) (s : Heap) (nid : Nat) (key value : Int) :
    Res (Heap × Option Nat × Bool) :=
  let n := getN s nid
  match find n.keys key with
  | (index, found) =>
    if found then
      .ok (updN s nid (fun m => { m with values := m.values.set index value }), none, false)
    else
      let s := updN s nid fun m =>
        { m with keys := insertAt m.keys index key, values := insertAt m.values index value }
      mayGrowUp fuel s nid

/-- `node.insert`: descend to the leaf chosen by `find` at each internal
node, then insert there. -/
def insertN : Nat → Heap → Nat → Int → Int → Res (Heap × Option Nat × Bool)
  | 0, _, _, _, _ => .error .outOfFuel
  | fuel + 1, s, nid, key, value =>
    let n := getN s nid
    if n.isLeaf then insertIntoLeaf fuel s nid key value
    else
      match find n.keys key with
      | (i, _) =>
        if h : i < n.children.length then insertN fuel s (n.children.get ⟨i, h⟩) key value
        else .error .indexOOB

/-- Second half of `node.mayStealFromNeighborLeaf`: when the next sibling
can give up a key, move its first pair to the end of node `nid` and
replace the parent key located by `find key` with the next sibling's new
first key (not the stolen key). -/
def stealFromNextLeaf (s : Heap) (nid : Nat) (key : Int) : Res (Heap × Bool) :=
  let n := getN s nid
  match n.next with
  | some nx =>
    if ((getN s nx).keys.length : Int) > minKeys (getN s nx) then
      let x := getN s nx
      let stolenKey := x.keys.getD 0 0
      let stolenValue := x.values.getD 0 0
      let s := updN s nx fun m => { m with keys := removeAt m.keys 0, values := removeAt m.values 0 }
      let s := updN s nid fun m =>
        { m with keys := m.keys ++ [stolenKey], values := m.values ++ [stolenValue] }
      let shiftUpKey := (getN s nx).keys.getD 0 0
      match (getN s nid).parent with
      | none => .error .nilDeref
      | some parId =>
        let par := getN s parId
        match find par.keys key with
        | (index, _) =>
          if index < par.keys.length then
            let s := updN s parId fun m =>
              { m with keys := insertAt (removeAt m.keys index) index shiftUpKey }
            .ok (s, true)
          else .error .indexOOB
    else .ok (s, false)
  | none => .ok (s, false)

/-- `node.mayStealFromNeighborLeaf`: try the previous sibling first (pop
its last pair onto the front of node `nid` and replace the parent key
located by `find key` with the stolen key), then the next sibling. -/
def mayStealFromNeighborLeaf (s : Heap) (nid : Nat) (key : Int) : Res (Heap × Bool) :=
  let n := getN s nid
  match n.prev with
  | some pv =>
    if ((getN s pv).keys.length : Int) > minKeys (getN s pv) then
      let p := getN s pv
      let stolenKey := p.keys.getD (p.keys.length - 1) 0
      let stolenValue := p.values.getD (p.values.length - 1) 0
      let s := updN s pv fun m => { m with keys := m.keys.dropLast, values := m.values.dropLast }
      let s := updN s nid fun m =>
        { m with keys := insertAt m.keys 0 stolenKey, values := insertAt m.values 0 stolenValue }
      match (getN s nid).parent with
      | none => .error .nilDeref
      | some parId =>
        let par := getN s parId
        match find par.keys key with
        | (index, _) =>
          if index < par.keys.length then
            let s := updN s parId fun m =>
              { m with keys := insertAt (removeAt m.keys index) index stolenKey }
            .ok (s, true)
          else .error .indexOOB
    else stealFromNextLeaf s nid key
  | none => stealFromNextLeaf s nid key

/-- `node.mayMergeWithNeighbor`: pick `(first, second) = (prev, n)`, or
`(n, next)` when there is no previous sibling (dereferencing a nil second
sibling — a Go panic — when both are absent).  If the combined key count
fits, append `second` onto `first`, re-link the chain, remove the key at
the (length-adjusted) index located by `find key` from the parent together
with the child after it, then either collapse an empty parent (detaching
`first`) or recurse on the parent. -/
def mayMergeWithNeighbor : Nat → Heap → Nat → Int → Res (Heap × Nat × Bool)
  | 0, _, _, _ => .error .outOfFuel
  | fuel + 1, s, nid, key =>
    let n := getN s nid
    let fs : Option (Nat × Nat) :=
      match n.prev with
      | some pv => some (pv, nid)
      | none =>
        match n.next with
        | some nx => some (nid, nx)
        | none => none
    match fs with
    | none => .error .nilDeref
    | some (firstId, secondId) =>
      let first := getN s firstId
      let second := getN s secondId
      if ((first.keys.length + second.keys.length : Nat) : Int) > maxKeys first then
        .ok (s, nid, false)
      else
        let s := updN s firstId fun m =>
          { m with
            keys := m.keys ++ second.keys
            children := m.children ++ second.children
            values := m.values ++ second.values
            next := second.next }
        let s :=
          match second.next with
          | some sx => updN s sx fun m => { m with prev := some firstId }
          | none => s
        match (getN s nid).parent with
        | none => .error .nilDeref
        | some parId =>
          let par := getN s parId
          if par.keys.length = 0 then .error .indexOOB
          else
            match find par.keys key with
            | (i0, _) =>
              let i := if i0 = par.keys.length then i0 - 1 else i0
              if i + 1 < par.children.length then
                let s := updN s parId fun m =>
                  { m with keys := removeAt m.keys i, children := removeAt m.children (i + 1) }
                if (getN s parId).keys.length = 0 then
                  let s := updN s firstId fun m => { m with parent := none }
                  .ok (s, firstId, true)
                else do
                  let (s, stopAt, _) ← mayMergeWithNeighbor fuel s parId key
                  .ok (s, stopAt, true)
              else .error .indexOOB

/-- `node.removeFromLeaf`: locate the key; when absent return not-found
without mutation, otherwise remove the pair and, unless the leaf is the
root or still meets `minKeys`, rebalance by steal or merge.  Returns the
merge's stop node (when a merge happened), the removed value, and found. -/
def removeFromLeaf (fuel : Nat) (s : Heap) (nid : Nat) (key : Int) :
    Res (Heap × Option Nat × Int × Bool) :=
  let n := getN s nid
  match find n.keys key with
  | (index, found) =>
    if !found then .ok (s, none, 0, false)
    else
      let out := n.values.getD index 0
      let s := updN s nid fun m =>
        { m with keys := removeAt m.keys index, values := removeAt m.values index }
      let n1 := getN s nid
      if n1.parent = none ∨ minKeys n1 ≤ (n1.keys.length : Int) then .ok (s, none, out, true)
      else do
        let (s, stole) ← mayStealFromNeighborLeaf s nid key
        if stole then .ok (s, none, out, true)
        else do
          let (s, stopAt, _) ← mayMergeWithNeighbor fuel s nid key
          .ok (s, some stopAt, out, true)

/-- `node.remove`: descend to the leaf chosen by `find` at each internal
node, then remove there. -/
def removeN : Nat → Heap → Nat → Int → Res (Heap × Option Nat × Int × Bool)
  | 0, _, _, _ => .error .outOfFuel
  | fuel + 1, s, nid, key =>
    let n := getN s nid
    if n.isLeaf then removeFromLeaf fuel s nid key
    else
      match find n.keys key with
      | (i, _) =>
        if h : i < n.children.length then removeN fuel s (n.children.get ⟨i, h⟩) key
        else .error .indexOOB

/-- Model of the Go `BPlusTree` handle: the configured order, the heap of
allocated nodes, and the nilable root id. -/
structure Tree where
  order : Nat
  heap  : Heap := []
  root  : Option Nat := none
deriving Repr, DecidableEq

/-- `New(order, less)`: the source stores the order and comparator and
performs no validation of `order`. -/
def New (order : Nat) : Tree := { order := order }

/-- `BPlusTree.Insert`: create a fresh root leaf when the tree is empty,
otherwise run the node-level insert and adopt a newly created root. -/
def Insert (fuel : Nat) (t : Tree) (key value : Int) : Res (Tree × Bool) :=
  match t.root with
  | none =>
    let nid := t.heap.length
    let n : GoNode := { keys := [key], values := [value], order := t.order, isLeaf := true }
    .ok ({ t with heap := t.heap ++ [n], root := some nid }, false)
  | some rid => do
    let (s, newRoot, found) ← insertN fuel t.heap rid key value
    let t1 :=
      match newRoot with
      | some r => { t with heap := s, root := some r }
      | none => { t with heap := s }
    .ok (t1, found)

/-- `BPlusTree.Remove`: zero value and false on an empty tree, otherwise
run the node-level remove and adopt the stop node as root when it has no
parent. -/
def Remove (fuel : Nat) (t : Tree) (key : Int) : Res (Tree × Int × Bool) :=
  match t.root with
  | none => .ok (t, 0, false)
  | some rid => do
    let (s, stopAt, out, found) ← removeN fuel t.heap rid key
    let t1 :=
      match stopAt with
      | some sid =>
        if (getN s sid).parent = none then { t with heap := s, root := some sid }
        else { t with heap := s }
      | none => { t with heap := s }
    .ok (t1, out, found)

/-- Leftmost descendant leaf: repeatedly take child 0 (spec's iteration
start point). -/
def leftmostLeaf : Nat → Heap → Nat → Nat
  | 0, _, nid => nid
  | fuel + 1, s, nid =>
    let n := getN s nid
    if n.isLeaf then nid else leftmostLeaf fuel s (n.children.getD 0 0)

/-- Node ids visited by walking `next` links from `nid`. -/
def chainFrom : Nat → Heap → Nat → List Nat
  | 0, _, _ => []
  | fuel + 1, s, nid =>
    nid ::
      (match (getN s nid).next with
       | some nx => chainFrom fuel s nx
       | none => [])

/-- Keys read off the leaf chain starting at the leftmost leaf (what the
spec's `Iterate()` produces). -/
def chainKeys (fuel : Nat) (t : Tree) : List Int :=
  match t.root with
  | none => []
  | some rid =>
    ((chainFrom fuel t.heap (leftmostLeaf fuel t.heap rid)).map fun i => (getN t.heap i).keys).flatten

/-- Key/value pairs read off the leaf chain starting at the leftmost leaf. -/
def chainPairs (fuel : Nat) (t : Tree) : List (Int × Int) :=
  match t.root with
  | none => []
  | some rid =>
    ((chainFrom fuel t.heap (leftmostLeaf fuel t.heap rid)).map fun i =>
      (getN t.heap i).keys.zip (getN t.heap i).values).flatten

/-- Node ids reachable from `nid` through `children` (the tree shape). -/
def subtreeNodes : Nat → Heap → Nat → List Nat
  | 0, _, _ => []
  | fuel + 1, s, nid => nid :: ((getN s nid).children.map (subtreeNodes fuel s)).flatten

/-- Keys stored in the leaves reachable from the root through `children`. -/
def treeKeys (fuel : Nat) (t : Tree) : List Int :=
  match t.root with
  | none => []
  | some rid =>
    (((subtreeNodes fuel t.heap rid).filter fun i => (getN t.heap i).isLeaf).map fun i =>
      (getN t.heap i).keys).flatten

/-- The key sequence of the root node (empty list for an empty tree). -/
def rootKeys (t : Tree) : List Int :=
  match t.root with
  | none => []
  | some rid => (getN t.heap rid).keys

/-- Whether a key list is strictly increasing under the comparator. -/
def strictlyIncreasing : List Int → Bool
  | [] => true
  | [_] => true
  | a :: b :: rest => less a b && strictlyIncreasing (b :: rest)

/-- The claimed per-node count invariant: non-root internal nodes hold
between `minKeys` and `maxKeys` keys and exactly `keys + 1` children;
non-root leaves hold between `minKeys` and `maxKeys` keys; the root is
exempt. -/
def nodeCountOk (s : Heap) (rootId : Nat) (nid : Nat) : Bool :=
  let n := getN s nid
  if nid = rootId then true
  else if n.isLeaf then
    decide (minKeys n ≤ (n.keys.length : Int)) && decide ((n.keys.length : Int) ≤ maxKeys n)
  else
    decide (minKeys n ≤ (n.keys.length : Int)) && decide ((n.keys.length : Int) ≤ maxKeys n)
      && decide (n.children.length = n.keys.length + 1)

/-- The count invariant over every node reachable from the root. -/
def orderInvariantHolds (fuel : Nat) (t : Tree) : Bool :=
  match t.root with
  | none => true
  | some rid => (subtreeNodes fuel t.heap rid).all (nodeCountOk t.heap rid)

/-- One public operation of the tree handle. -/
inductive Op where
  | ins (k v : Int)
  | del (k : Int)
deriving Repr, DecidableEq

/-- Run a sequence of public operations from a starting tree. -/
def runOps (fuel : Nat) : Tree → List Op → Res Tree
  | t, [] => .ok t
  | t, .ins k v :: rest => do
    let (t1, _) ← Insert fuel t k v
    runOps fuel t1 rest
  | t, .del k :: rest => do
    let (t1, _, _) ← Remove fuel t k
    runOps fuel t1 rest

theorem find_nil (k : Int) : find [] k = (0, false) := rfl

theorem find_singleton_self (k : Int) : find [k] k = (0, true) := by
  simp [find, sortSearch, searchGo, less, List.getD]

theorem insertAt_removeAt_set (l : List Int) (j : Nat) (b : Int) (h : j < l.length) :
    insertAt (removeAt l j) j b = l.set j b := by
  induction l generalizing j with
  | nil => simp at h
  | cons x xs ih =>
    cases j with
    | zero => simp [insertAt, removeAt]
    | succ j' =>
      simp only [insertAt, removeAt, List.take_succ_cons, List.drop_succ_cons,
        List.cons_append, List.set]
      have hj' : j' < xs.length := by simpa using h
      have := ih j' hj'
      simp only [insertAt, removeAt] at this
      rw [this]

/-- C1: the claim states that the public `Insert(key, value)` returns
`existed = true` exactly when the key was already present.  In the source,
`BPlusTree.Insert` returns the boolean produced by `node.insert`, which is
the `mayGrowUp` "a new root was created by a split" flag (and `false` from
`insertIntoLeaf` when the key was found), not key existence.  Evaluated at
order 3: `Insert(5, 0)` then `Insert(5, 1)`; before the second call the
tree holds exactly key 5, yet the second call returns `false` while it
does overwrite the stored value in place. -/
theorem c1_insert_existing_key_returns_false :
    (do
      let (t1, b1) ← Insert 64 (New 3) 5 0
      let (t2, b2) ← Insert 64 t1 5 1
      pure (b1, chainKeys 64 t1, b2, chainPairs 64 t2))
      = .ok (false, [5], false, [(5, 1)]) := by rfl

/-- C2: the claim states `Remove(key)` returns the stored value with
`found = true` whenever the key is present anywhere in the tree.
Evaluated at order 3 after inserting 1, 2, 3, 4 (root separator 3 over
leaves [1, 2] and [3, 4]): key 3 is present, yet `Remove(3)` returns
`found = false` (value 0) and leaves the tree bit-for-bit unchanged,
because the descent routes a key equal to a separator into the left
child, which does not contain it. -/
theorem c2_remove_present_separator_key_not_found :
    (do
      let t ← runOps 64 (New 3) [.ins 1 1, .ins 2 2, .ins 3 3, .ins 4 4]
      let (t2, out, found) ← Remove 64 t 3
      pure ((chainKeys 64 t).contains 3, out, found, t2 == t))
      = .ok (true, 0, false, true) := by rfl

/-- C3: the claim states that during descent a key equal to separator
`keys[j]` goes to `children[j+1]`.  In the source, `node.insert` and
`node.remove` descend into `children[i]` with `i` taken from
`items.find`, and `find` returns the matching index itself on an exact
hit: for root keys `[3]` and search key 3 it yields index 0, so the
descent enters `children[0]` — the left child.  Consequence, evaluated at
order 3 on the tree built from 1, 2, 3, 4: inserting key 3 again lands in
the left leaf and duplicates the key across the leaf chain. -/
theorem c3_boundary_tie_descends_left :
    find [(3 : Int)] 3 = (0, true)
    ∧ (do
        let t ← runOps 64 (New 3) [.ins 1 1, .ins 2 2, .ins 3 3, .ins 4 4]
        let (t2, _) ← Insert 64 t 3 99
        pure (rootKeys t, chainKeys 64 t2))
        = .ok ([3], [1, 2, 3, 3, 4]) := ⟨rfl, rfl⟩

/-- C4: the claim states the key-count/children-count invariants hold
after every operation sequence.  Evaluated at order 4: inserting 1..13
and removing 4 completes without a modelled panic, but afterwards node 1
is a reachable non-root leaf holding the single stale key [3] while
`minKeys` for an order-4 leaf is 2 (the leaf-level merge removed the
wrong separator and the wrong child from its parent, keeping the merged-
away leaf and dropping a live sibling; keys 11, 12, 13 vanish from the
tree and key 3 is duplicated). -/
theorem c4_order_invariant_violated :
    (do
      let t ← runOps 64 (New 4)
        [.ins 1 1, .ins 2 2, .ins 3 3, .ins 4 4, .ins 5 5, .ins 6 6, .ins 7 7,
         .ins 8 8, .ins 9 9, .ins 10 10, .ins 11 11, .ins 12 12, .ins 13 13, .del 4]
      pure (orderInvariantHolds 64 t, t.root, (subtreeNodes 64 t.heap 2).contains 1,
            (getN t.heap 1).isLeaf, (getN t.heap 1).keys, minKeys (getN t.heap 1),
            treeKeys 64 t))
      = .ok (false, some 2, true, true, [3], 2, [1, 2, 3, 3, 5, 6, 7, 8, 9, 10]) := by rfl

/-- C5: the claim states the leaf-chain key concatenation stays strictly
increasing after every operation sequence.  Evaluated at order 3:
inserting 1, 2, 3, 4 and then inserting key 3 again (which descends into
the left leaf because 3 equals the root separator) yields the leaf chain
concatenation [1, 2, 3, 3, 4], which is not strictly increasing. -/
theorem c5_leaf_chain_not_strictly_increasing :
    (do
      let t ← runOps 64 (New 3) [.ins 1 1, .ins 2 2, .ins 3 3, .ins 4 4, .ins 3 99]
      pure (chainKeys 64 t, strictlyIncreasing (chainKeys 64 t)))
      = .ok ([1, 2, 3, 3, 4], false) := by rfl

/-- C6: the claim states that after a merge empties the parent, the
parent's sole remaining child becomes the tree's root exactly when the
collapsed parent was the root, and that only the redundant separator and
unused child are removed.  Evaluated at order 3 after inserting 1..8
(root is internal node 6 with key [5]): removing key 2 merges the two
leftmost leaves, empties their non-root parent (node 2), detaches the
merged leaf (node 0), and `Remove` promotes that leaf to tree root even
though the collapsed parent was not the tree's root — the tree afterwards
holds only [1, 3, 4] and keys 5..8 are silently lost. -/
theorem c6_collapse_promotes_child_of_nonroot_parent :
    (do
      let t ← runOps 64 (New 3)
        [.ins 1 1, .ins 2 2, .ins 3 3, .ins 4 4, .ins 5 5, .ins 6 6, .ins 7 7, .ins 8 8]
      let (t2, out, found) ← Remove 64 t 2
      pure (t.root, rootKeys t, treeKeys 64 t, out, found, t2.root,
            (getN t2.heap 0).isLeaf, treeKeys 64 t2))
      = .ok (some 6, [5], [1, 2, 3, 4, 5, 6, 7, 8], 2, true, some 0, true, [1, 3, 4]) := by rfl

/-- C7: the claim states that a steal from the previous sibling
overwrites the parent separator that routes to the underflowed leaf with
the stolen key, leaving every other parent key unchanged.  Evaluated at
order 3 (insert 1..6 then 0, remove 4): the underflowed middle leaf
steals key 2, the separator routing to it is `keys[0] = 3` and the result
claimed would be [2, 5], yet the code replaces `keys[1] = 5` (located by
`find` on the removed key), producing the unsorted root key sequence
[3, 2]. -/
theorem c7_steal_prev_overwrites_wrong_separator :
    (do
      let t ← runOps 64 (New 3)
        [.ins 1 1, .ins 2 2, .ins 3 3, .ins 4 4, .ins 5 5, .ins 6 6, .ins 0 0, .del 4]
      pure (rootKeys t, strictlyIncreasing (rootKeys t), chainKeys 64 t))
      = .ok ([3, 2], false, [0, 1, 2, 3, 5, 6]) := by rfl

theorem getN_cons_zero (x : GoNode) (l : Heap) : getN (x :: l) 0 = x := rfl

theorem getN_cons_succ (x : GoNode) (l : Heap) (i : Nat) :
    getN (x :: l) (i + 1) = getN l i := rfl

theorem updN_cons_zero (x : GoNode) (l : Heap) (f : GoNode → GoNode) :
    updN (x :: l) 0 f = f x :: l := rfl

theorem updN_cons_succ (x : GoNode) (l : Heap) (i : Nat) (f : GoNode → GoNode) :
    updN (x :: l) (i + 1) f = x :: updN l i f := rfl

/-- C8 (confirmed): when an underflowing leaf (node 1) steals from its
next sibling (node 2) — the previous sibling (node 3) cannot give up a
key — the next leaf's first key/value pair `(a, av)` moves to the end of
the current leaf, and the parent key at the index located by `find`
(hypothesised, as in a well-formed tree, to be the separator between the
two leaves: node 1 is child `j` and node 2 is child `j+1`) is overwritten
with `b`, the next leaf's new first key after the removal — which differs
from the stolen key `a`. -/
theorem c8_steal_from_next_updates_separator_to_new_first_key
    (m : Nat) (nk nv : List Int) (a av b bv : Int) (rest restv : List Int)
    (pk : List Int) (cs : List Nat) (pr : GoNode) (key : Int) (j : Nat)
    (hprev : ¬ (minKeys pr < (pr.keys.length : Int)))
    (hnext : (m + 1) / 2 < rest.length + 2)
    (hfind : find pk key = (j, false))
    (hj : j < pk.length)
    (hcsn : cs.getD j 0 = 1)
    (hcsx : cs.getD (j + 1) 0 = 2)
    (hab : a < b) :
    mayStealFromNeighborLeaf
      [⟨pk, cs, none, m, none, none, false, []⟩,
       ⟨nk, [], some 0, m, some 2, some 3, true, nv⟩,
       ⟨a :: b :: rest, [], some 0, m, none, some 1, true, av :: bv :: restv⟩,
       pr] 1 key
      = .ok ([⟨pk.set j b, cs, none, m, none, none, false, []⟩,
              ⟨nk ++ [a], [], some 0, m, some 2, some 3, true, nv ++ [av]⟩,
              ⟨b :: rest, [], some 0, m, none, some 1, true, bv :: restv⟩,
              pr], true)
      ∧ b ≠ a := by
  constructor
  · have hnext' : minKeys (⟨a :: b :: rest, [], some 0, m, none, some 1, true,
        av :: bv :: restv⟩ : GoNode) < ((a :: b :: rest).length : Int) := by
      simp [minKeys]
      omega
    simp only [mayStealFromNeighborLeaf, getN_cons_succ, getN_cons_zero, gt_iff_lt]
    rw [if_neg hprev]
    simp only [stealFromNextLeaf, getN_cons_succ, getN_cons_zero, gt_iff_lt]
    rw [if_pos hnext']
    simp only [updN_cons_succ, updN_cons_zero, getN_cons_succ, getN_cons_zero,
      removeAt, insertAt, List.getD, hfind]
    rw [if_pos hj]
    have hset := insertAt_removeAt_set pk j b hj
    simp only [insertAt, removeAt] at hset
    simp only [List.take_zero, List.nil_append, List.drop_succ_cons, List.drop_zero,
      List.get?_cons_zero, Option.getD_some, List.getD]
    rw [hset]
  · exact hab.ne'

/-- Witness for C8: a concrete order-3 configuration (parent keys [3, 5]
over leaves [1,2], [3], [5,6,7]; key 4 was just removed from the middle
leaf) satisfying every hypothesis; the steal moves 5 over and sets the
separator to 6, the new first key of the right leaf. -/
theorem c8_steal_witness :
    mayStealFromNeighborLeaf
      [⟨[3, 5], [3, 1, 2], none, 3, none, none, false, []⟩,
       ⟨[3], [], some 0, 3, some 2, some 3, true, [30]⟩,
       ⟨[5, 6, 7], [], some 0, 3, none, some 1, true, [50, 60, 70]⟩,
       ⟨[1, 2], [], some 0, 3, some 1, none, true, [10, 20]⟩] 1 4
      = .ok ([⟨[3, 5].set 1 6, [3, 1, 2], none, 3, none, none, false, []⟩,
              ⟨[3] ++ [5], [], some 0, 3, some 2, some 3, true, [30] ++ [50]⟩,
              ⟨[6, 7], [], some 0, 3, none, some 1, true, [60, 70]⟩,
              ⟨[1, 2], [], some 0, 3, some 1, none, true, [10, 20]⟩], true)
      ∧ (6 : Int) ≠ 5 :=
  c8_steal_from_next_updates_separator_to_new_first_key 3 [3] [30] 5 50 6 60 [7] [70]
    [3, 5] [3, 1, 2] ⟨[1, 2], [], some 0, 3, some 1, none, true, [10, 20]⟩ 4 1
    (by decide) (by decide) (by decide) (by decide) (by decide) (by decide) (by decide)

/-- C9 counterexample: `New 2` accepts the out-of-range order 2 — the
constructor has no error channel at all, so no configuration error can be
surfaced — and the returned tree is usable: a subsequent `Insert` stores
the pair, contradicting the claim that `New` neither returns a usable
tree nor accepts orders below 3. -/
theorem c9_new_accepts_small_order :
    New 2 = { order := 2, heap := [], root := none }
    ∧ Insert 64 (New 2) 5 7
      = .ok ({ order := 2, heap := [⟨[5], [], none, 2, none, none, true, [7]⟩],
               root := some 0 }, false) :=
  ⟨rfl, rfl⟩

/-- C9 amended (proved): `New` performs no validation of the order: for
every order — below 3 included — it returns the empty tree, and a first
insertion stores the given pair in a fresh root leaf. -/
theorem c9_new_never_validates (order : Nat) (key value : Int) :
    New order = { order := order, heap := [], root := none }
    ∧ Insert 64 (New order) key value
      = .ok ({ order := order,
               heap := [⟨[key], [], none, order, none, none, true, [value]⟩],
               root := some 0 }, false) :=
  ⟨rfl, rfl⟩

/-- C10 (confirmed): starting from a tree whose root is a solitary leaf
holding exactly the pair `(k, v)` (as produced by the first `Insert`),
removing `k` returns `(v, true)` and leaves the handle's root as the same
non-nil leaf node, now with zero keys, rather than resetting it to nil;
on that empty-rooted tree a `Remove` of any key `k2` returns not-found
with the tree unchanged, and an `Insert` of any pair `(k2, v2)` stores it
as the tree's single pair (for any order of at least 1; the source allows
any order here since a parentless leaf skips the minimum-key check). -/
theorem c10_solitary_root_leaf (m : Nat) (hm : 1 ≤ m) (k v k2 v2 : Int) :
    Insert 2 (New m) k v
      = .ok ({ order := m, heap := [⟨[k], [], none, m, none, none, true, [v]⟩],
               root := some 0 }, false)
    ∧ Remove 1 { order := m, heap := [⟨[k], [], none, m, none, none, true, [v]⟩],
                 root := some 0 } k
      = .ok ({ order := m, heap := [⟨[], [], none, m, none, none, true, []⟩],
               root := some 0 }, v, true)
    ∧ Remove 1 { order := m, heap := [⟨[], [], none, m, none, none, true, []⟩],
                 root := some 0 } k2
      = .ok ({ order := m, heap := [⟨[], [], none, m, none, none, true, []⟩],
               root := some 0 }, 0, false)
    ∧ Insert 2 { order := m, heap := [⟨[], [], none, m, none, none, true, []⟩],
                 root := some 0 } k2 v2
      = .ok ({ order := m, heap := [⟨[k2], [], none, m, none, none, true, [v2]⟩],
               root := some 0 }, false) := by
  refine ⟨rfl, ?_, rfl, ?_⟩
  · simp only [Remove, removeN, removeFromLeaf, getN_cons_zero, find_singleton_self,
      updN_cons_zero, removeAt, List.getD]
    rfl
  · simp only [Insert, insertN, insertIntoLeaf, getN_cons_zero, find_nil,
      updN_cons_zero, insertAt, mayGrowUp, List.take_zero, List.drop_zero,
      List.nil_append, Bool.false_eq_true, if_false, ite_true, ite_false]
    split
    next => rfl
    next hcond =>
      exfalso
      simp [maxKeys] at hcond
      omega

/-- Witness for C10 at order 3 with pairs (5, 7) and (9, 11). -/
theorem c10_solitary_root_leaf_witness :
    (1 ≤ 3)
    ∧ (Insert 2 (New 3) 5 7
        = .ok ({ order := 3, heap := [⟨[5], [], none, 3, none, none, true, [7]⟩],
                 root := some 0 }, false)
      ∧ Remove 1 { order := 3, heap := [⟨[5], [], none, 3, none, none, true, [7]⟩],
                   root := some 0 } 5
        = .ok ({ order := 3, heap := [⟨[], [], none, 3, none, none, true, []⟩],
                 root := some 0 }, 7, true)
      ∧ Remove 1 { order := 3, heap := [⟨[], [], none, 3, none, none, true, []⟩],
                   root := some 0 } 9
        = .ok ({ order := 3, heap := [⟨[], [], none, 3, none, none, true, []⟩],
                 root := some 0 }, 0, false)
      ∧ Insert 2 { order := 3, heap := [⟨[], [], none, 3, none, none, true, []⟩],
                   root := some 0 } 9 11
        = .ok ({ order := 3, heap := [⟨[9], [], none, 3, none, none, true, [11]⟩],
                 root := some 0 }, false)) :=
  ⟨by decide, c10_solitary_root_leaf 3 (by decide) 5 7 9 11⟩

end BPTree
